import Mathlib

/-!
# Verification of `order_includes` (src/main.cpp)

A shallow embedding of the import-block sorting tool: the program reads a
Go source file as a list of lines, locates the first `import(` … `)` block,
replaces blank lines inside the block by a sentinel string, sorts the block
with a comparator (category first, then lexicographic key), and re-emits the
file, dropping sentinel lines and inserting one blank separator line between
adjacent categories.

Lines are modelled as Lean `String`s (C++ `std::string`); a file is a
`List String` (the result of reading line by line); `std::sort` is modelled
by `List.mergeSort`, a sort satisfying the C++ sort contract for a strict
weak ordering.
-/

namespace OrderIncludes

/-- The whitespace test of C `std::isspace` in the default locale. -/
def isSpaceChar (c : Char) : Bool :=
  c = ' ' || c = '\t' || c = '\n' || c = '\x0b' || c = '\x0c' || c = '\r'

/-- `removeSpaces` from src/main.cpp: keep exactly the non-whitespace
characters, in order. -/
def removeSpaces (s : String) : String :=
  ⟨s.data.filter (fun c => !isSpaceChar c)⟩

/-- Character-list truncation at the first occurrence of `//`. -/
def truncComment : List Char → List Char
  | '/' :: '/' :: _ => []
  | c :: rest => c :: truncComment rest
  | [] => []

/-- `removeComments` from src/main.cpp: truncate the string at the first
occurrence of the substring `//` (identity if there is none). -/
def removeComments (s : String) : String :=
  ⟨truncComment s.data⟩

/-- `g_deleted_line` from src/main.cpp: the sentinel marking a line as
deleted. -/
def g_deleted_line : String := "$\x7bTHIS_LINE_IS_DELETED\x7d"

/-- `ModuleType` from src/main.cpp (declaration order fixes the sort
order of the groups). -/
inductive ModuleType where
  | StdLib
  | Platform
  | ThirdParty
  | None
deriving DecidableEq, Repr

/-- The underlying integer value of a `ModuleType` enumerator, used by the
C++ `<` on the enum. -/
def ModuleType.toNat : ModuleType → Nat
  | .StdLib => 0
  | .Platform => 1
  | .ThirdParty => 2
  | .None => 3

/-- Strict lexicographic order on character lists, as computed by
`std::string::operator<` (byte order and scalar order agree on UTF-8). -/
def listLt : List Char → List Char → Bool
  | [], [] => false
  | [], _ :: _ => true
  | _ :: _, [] => false
  | a :: as, b :: bs =>
    if a < b then true
    else if b < a then false
    else listLt as bs

/-- `lhs < rhs` on `std::string`, via `listLt` on the characters. -/
def strLt (lhs rhs : String) : Bool :=
  listLt lhs.data rhs.data

/-- `std::string::find(pat) != npos`: some suffix of `s` starts with
`pat`. -/
def containsSub (pat : List Char) : List Char → Bool
  | [] => pat.isPrefixOf []
  | c :: rest => pat.isPrefixOf (c :: rest) || containsSub pat rest

/-- The string `s.find(pat) != npos` test lifted to `String`. -/
def strContains (s pat : String) : Bool :=
  containsSub pat.data s.data

/-- `isThirdPartyModule` from src/main.cpp: the line contains one of the
four quoted third-party path roots. -/
def isThirdPartyModule (s : String) : Bool :=
  strContains s "\"github.com/" ||
  strContains s "\"gopkg.in/" ||
  strContains s "\"golang.org/" ||
  strContains s "\"pault.ag/"

/-- `isPlatformModule` from src/main.cpp. -/
def isPlatformModule (s : String) : Bool :=
  strContains s "\"platform/"

/-- `isStdLibModule` from src/main.cpp. -/
def isStdLibModule (s : String) : Bool :=
  if s = "" then false
  else if s.data.all isSpaceChar then false
  else if s = g_deleted_line then false
  else if isThirdPartyModule s then false
  else if isPlatformModule s then false
  else if "//".data.isPrefixOf (removeSpaces s).data then false
  else true

/-- `moduleType` from src/main.cpp. -/
def moduleType (s : String) : ModuleType :=
  if isThirdPartyModule s then .ThirdParty
  else if isPlatformModule s then .Platform
  else if isStdLibModule s then .StdLib
  else .None

/-- `removeUserModuleName` from src/main.cpp: drop everything before the
first `"` character (identity if there is none). -/
def removeUserModuleName (s : String) : String :=
  if s.data.contains '"' then ⟨s.data.dropWhile (fun c => c ≠ '"')⟩ else s

/-- The comparator `cmp` from src/main.cpp. -/
def cmp (lhs rhs : String) : Bool :=
  if lhs = g_deleted_line ∧ rhs = g_deleted_line then false
  else if lhs = g_deleted_line then false
  else if rhs = g_deleted_line then true
  else if moduleType lhs ≠ moduleType rhs then
    decide ((moduleType lhs).toNat < (moduleType rhs).toNat)
  else strLt (removeUserModuleName (removeSpaces lhs))
             (removeUserModuleName (removeSpaces rhs))

/-- The non-strict order fed to the model sort: `a` may stay before `b`
exactly when `b` is not strictly smaller under `cmp` (the sortedness
contract of `std::sort`). -/
def leFun (a b : String) : Bool := !cmp b a

/-- A line opening the import block: after space removal and comment
truncation it is exactly `import(`. -/
def isOpenLine (s : String) : Bool :=
  removeComments (removeSpaces s) = "import("

/-- A line closing the import block: after space removal and comment
truncation it is exactly `)`. -/
def isCloseLine (s : String) : Bool :=
  removeComments (removeSpaces s) = ")"

/-- First half of `findIncludes` from src/main.cpp: the index one past the
first opening line, or the length if there is none. -/
def beginIdx (lines : List String) : Nat :=
  match lines.findIdx? isOpenLine with
  | some i => i + 1
  | none => lines.length

/-- Second half of `findIncludes` from src/main.cpp: the index of the first
closing line at or after `beginIdx`, or the length if there is none. -/
def endIdx (lines : List String) : Nat :=
  match (lines.drop (beginIdx lines)).findIdx? isCloseLine with
  | some j => beginIdx lines + j
  | none => lines.length

/-- A line that `deleteEmptyLines` replaces: empty, or whitespace only. -/
def isBlankLine (s : String) : Bool :=
  s = "" || s.data.all isSpaceChar

/-- `deleteEmptyLines` from src/main.cpp: inside `[b, e)`, replace blank
lines by the sentinel. -/
def deleteEmptyLines (b e : Nat) (lines : List String) : List String :=
  lines.take b
    ++ ((lines.drop b).take (e - b)).map
        (fun s => if isBlankLine s then g_deleted_line else s)
    ++ lines.drop e

/-- `std::sort(begin, end, cmp)` in `formatFile`: sort the slice `[b, e)`
in place. `mergeSort` stands in for `std::sort`; the development relies
only on its permutation and sortedness postconditions, which every
conforming `std::sort` run guarantees (the order among `cmp`-equivalent
lines is unspecified and is not used). -/
def sortIncludes (b e : Nat) (lines : List String) : List String :=
  lines.take b
    ++ ((lines.drop b).take (e - b)).mergeSort leFun
    ++ lines.drop e

/-- The separator test of the renderer: both neighbours classified,
with different categories. -/
def needsSeparator (x y : String) : Bool :=
  moduleType x ≠ ModuleType.None && moduleType y ≠ ModuleType.None
    && moduleType x ≠ moduleType y

/-- The separator decision after the line at index `i`: a blank line is
emitted when `i` is not the last index (the remaining lines are the third
argument), neither the line nor its successor is the sentinel, both indices
lie within `[b, e)`, and the two lines have different non-`None`
categories. -/
def sepAfter (b e i : Nat) (x : String) : List String → List String
  | [] => []
  | y :: _ =>
    if x ≠ g_deleted_line ∧ y ≠ g_deleted_line ∧
       b ≤ i ∧ i < e ∧ b ≤ i + 1 ∧ i + 1 < e ∧
       needsSeparator x y
    then [""] else []

/-- The loop body of `writeWithoutDeletedLinesAndWithSeparatedGroups`:
emit each non-sentinel line, then the separator blank line when due. -/
def writeLines (b e : Nat) : Nat → List String → List String
  | _, [] => []
  | i, x :: rest =>
    (if x = g_deleted_line then [] else [x]) ++
    sepAfter b e i x rest ++
    writeLines b e (i + 1) rest

/-- `writeWithoutDeletedLinesAndWithSeparatedGroups` from src/main.cpp:
re-locate the block, then emit the surviving lines with separators. -/
def writeWithoutDeletedLines (lines : List String) : List String :=
  writeLines (beginIdx lines) (endIdx lines) 0 lines

/-- `formatFile` from src/main.cpp, as a function from the lines read to
the status message and (when the file is rewritten) the lines written. -/
def formatFile (lines : List String) : String × Option (List String) :=
  if lines = [] then ("failed to read from file", none)
  else
    let b := beginIdx lines
    let e := endIdx lines
    if e ≤ b then ("no includes found", none)
    else
      ("done", some (writeWithoutDeletedLines
        (sortIncludes b e (deleteEmptyLines b e lines))))

/-- The per-file loop of `main` from src/main.cpp: each discovered file is
formatted independently, in order. -/
def processBatch (files : List (List String)) : List (String × Option (List String)) :=
  files.map formatFile

/-- Modelled from the spec's classification rules, first match wins:
ThirdParty on a third-party substring; otherwise Platform on
`"platform/`; otherwise StandardLibrary when the line is non-blank, not
the sentinel, and does not start (after whitespace removal) with `//`;
otherwise None. -/
def classifySpec (s : String) : ModuleType :=
  if isThirdPartyModule s then .ThirdParty
  else if isPlatformModule s then .Platform
  else if isBlankLine s = false ∧ s ≠ g_deleted_line ∧
      "//".data.isPrefixOf (removeSpaces s).data = false then .StdLib
  else .None

/-- The comparison key of a line: whitespace stripped, alias stripped. -/
def pathKey (s : String) : String :=
  removeUserModuleName (removeSpaces s)

/-- The rank of a line's category. -/
def rank (s : String) : Nat :=
  (moduleType s).toNat

/-- The keep test of the renderer: a line survives iff it is not the
sentinel. -/
def keepLine (s : String) : Bool := s ≠ g_deleted_line

/-- The renderer restricted to the block: emit non-sentinel lines, with one
blank line between adjacent kept lines of different non-`None`
categories. -/
def blockRender : List String → List String
  | [] => []
  | [x] => if x = g_deleted_line then [] else [x]
  | x :: y :: t =>
    (if x = g_deleted_line then [] else [x]) ++
    (if x ≠ g_deleted_line ∧ y ≠ g_deleted_line ∧ needsSeparator x y
     then [""] else []) ++
    blockRender (y :: t)

/-- One blank separator between adjacent lines of different non-`None`
categories, and nothing else: the spec's description of the rendered
block. -/
def intersperseSeps : List String → List String
  | [] => []
  | [x] => [x]
  | x :: y :: t =>
    x :: ((if needsSeparator x y then [""] else []) ++ intersperseSeps (y :: t))

/-! ## The character-list order is the lexicographic strict order -/

theorem listLt_iff_lt : ∀ {a b : List Char}, listLt a b = true ↔ a < b := by
  intro a
  induction a with
  | nil =>
    intro b
    cases b with
    | nil => exact iff_of_false (by simp [listLt]) (lt_irrefl ([] : List Char))
    | cons y ys => exact iff_of_true (by simp [listLt]) (List.nil_lt_cons y ys)
  | cons x xs ih =>
    intro b
    cases b with
    | nil => exact iff_of_false (by simp [listLt]) (List.Lex.not_nil_right _ _)
    | cons y ys =>
      simp only [listLt]
      constructor
      · intro h
        by_cases hxy : x < y
        · exact List.Lex.rel hxy
        · by_cases hyx : y < x
          · simp [hxy, hyx] at h
          · have hxyeq : x = y := le_antisymm (le_of_not_lt hyx) (le_of_not_lt hxy)
            simp only [if_neg hxy, if_neg hyx] at h
            subst hxyeq
            exact List.Lex.cons (ih.mp h)
      · intro h
        cases h with
        | rel h' => simp [h']
        | cons h' =>
          rw [if_neg (lt_irrefl x), if_neg (lt_irrefl x)]
          exact ih.mpr h'

theorem strLt_iff_lt {s t : String} : strLt s t = true ↔ s.data < t.data :=
  listLt_iff_lt

/-! ## The comparator is a strict weak ordering -/

theorem toNat_inj {a b : ModuleType} (h : a.toNat = b.toNat) : a = b := by
  cases a <;> cases b <;> first
    | rfl
    | simp [ModuleType.toNat] at h

theorem cmp_del_left (x : String) : cmp g_deleted_line x = false := by
  unfold cmp
  by_cases hx : x = g_deleted_line <;> simp [hx]

theorem cmp_del_right {x : String} (hx : x ≠ g_deleted_line) :
    cmp x g_deleted_line = true := by
  unfold cmp
  simp [hx]

theorem cmp_nondel {lhs rhs : String} (hl : lhs ≠ g_deleted_line)
    (hr : rhs ≠ g_deleted_line) :
    (cmp lhs rhs = true ↔
      rank lhs < rank rhs ∨
        (moduleType lhs = moduleType rhs ∧ (pathKey lhs).data < (pathKey rhs).data)) := by
  unfold cmp
  rw [if_neg (fun h => hl h.1), if_neg hl, if_neg hr]
  by_cases ht : moduleType lhs = moduleType rhs
  · rw [if_neg (by simp [ht])]
    have hrk : rank lhs = rank rhs := congrArg ModuleType.toNat ht
    simp only [ht, true_and, pathKey]
    rw [strLt_iff_lt]
    constructor
    · exact Or.inr
    · rintro (h | h)
      · omega
      · exact h
  · rw [if_pos ht]
    simp only [decide_eq_true_eq]
    constructor
    · exact Or.inl
    · rintro (h | ⟨h1, -⟩)
      · exact h
      · exact absurd h1 ht

theorem cmp_irrefl (x : String) : cmp x x = false := by
  by_cases hx : x = g_deleted_line
  · subst hx
    exact cmp_del_left _
  · rw [← Bool.not_eq_true]
    intro h
    rcases (cmp_nondel hx hx).mp h with h' | ⟨-, h'⟩
    · exact lt_irrefl _ h'
    · exact lt_irrefl _ h'

theorem cmp_asymm {x y : String} (h : cmp x y = true) : cmp y x = false := by
  by_cases hx : x = g_deleted_line
  · subst hx
    rw [cmp_del_left] at h
    exact absurd h (by simp)
  · by_cases hy : y = g_deleted_line
    · subst hy
      exact cmp_del_left _
    · rw [← Bool.not_eq_true]
      intro h'
      rcases (cmp_nondel hx hy).mp h with h1 | ⟨h1, h2⟩ <;>
        rcases (cmp_nondel hy hx).mp h' with h3 | ⟨h3, h4⟩
      · omega
      · have : rank y = rank x := congrArg ModuleType.toNat h3
        omega
      · have : rank x = rank y := congrArg ModuleType.toNat h1
        omega
      · exact lt_asymm h2 h4

theorem cmp_trans {x y z : String} (h1 : cmp x y = true) (h2 : cmp y z = true) :
    cmp x z = true := by
  by_cases hx : x = g_deleted_line
  · subst hx
    rw [cmp_del_left] at h1
    exact absurd h1 (by simp)
  · by_cases hy : y = g_deleted_line
    · subst hy
      rw [cmp_del_left] at h2
      exact absurd h2 (by simp)
    · by_cases hz : z = g_deleted_line
      · subst hz
        exact cmp_del_right hx
      · rcases (cmp_nondel hx hy).mp h1 with ha | ⟨ha, ha'⟩ <;>
          rcases (cmp_nondel hy hz).mp h2 with hb | ⟨hb, hb'⟩
        · exact (cmp_nondel hx hz).mpr (Or.inl (lt_trans ha hb))
        · refine (cmp_nondel hx hz).mpr (Or.inl ?_)
          have : rank y = rank z := congrArg ModuleType.toNat hb
          omega
        · refine (cmp_nondel hx hz).mpr (Or.inl ?_)
          have : rank x = rank y := congrArg ModuleType.toNat ha
          omega
        · exact (cmp_nondel hx hz).mpr (Or.inr ⟨ha.trans hb, lt_trans ha' hb'⟩)

theorem leFun_total (a b : String) : leFun a b || leFun b a := by
  unfold leFun
  by_cases h : cmp b a = true
  · simp [cmp_asymm h]
  · simp [Bool.not_eq_true] at h
    simp [h]

theorem cmp_negtrans {a b c : String} (h1 : cmp b a = false) (h2 : cmp c b = false) :
    cmp c a = false := by
  have hba : ¬ cmp b a = true := by simp [h1]
  have hcb : ¬ cmp c b = true := by simp [h2]
  rw [← Bool.not_eq_true]
  intro hca
  by_cases hc : c = g_deleted_line
  · subst hc
    rw [cmp_del_left] at hca
    exact absurd hca (by simp)
  · by_cases ha : a = g_deleted_line
    · by_cases hb : b = g_deleted_line
      · subst hb
        exact hcb (cmp_del_right hc)
      · exact hba (by rw [ha]; exact cmp_del_right hb)
    · by_cases hb : b = g_deleted_line
      · subst hb
        exact hcb (cmp_del_right hc)
      · rcases (cmp_nondel hc ha).mp hca with h' | ⟨h', h''⟩
        · rcases Nat.lt_or_ge (rank c) (rank b) with hcb' | hcb'
          · exact hcb ((cmp_nondel hc hb).mpr (Or.inl hcb'))
          · rcases Nat.lt_or_ge (rank b) (rank a) with hba' | hba'
            · exact hba ((cmp_nondel hb ha).mpr (Or.inl hba'))
            · omega
        · have hra : rank c = rank a := congrArg ModuleType.toNat h'
          rcases Nat.lt_or_ge (rank c) (rank b) with hcb' | hcb'
          · exact hcb ((cmp_nondel hc hb).mpr (Or.inl hcb'))
          · rcases Nat.lt_or_ge (rank b) (rank a) with hba' | hba'
            · exact hba ((cmp_nondel hb ha).mpr (Or.inl hba'))
            · have hcb'' : rank c = rank b := by omega
              have hba'' : rank b = rank a := by omega
              have hclb : moduleType c = moduleType b := toNat_inj hcb''
              have hbla : moduleType b = moduleType a := toNat_inj hba''
              rcases lt_trichotomy (pathKey c).data (pathKey b).data with hk | hk | hk
              · exact hcb ((cmp_nondel hc hb).mpr (Or.inr ⟨hclb, hk⟩))
              · exact hba ((cmp_nondel hb ha).mpr (Or.inr ⟨hbla, hk ▸ h''⟩))
              · exact hba ((cmp_nondel hb ha).mpr (Or.inr ⟨hbla, lt_trans hk h''⟩))

theorem leFun_trans (a b c : String) (h1 : leFun a b) (h2 : leFun b c) :
    leFun a c := by
  have h1' : cmp b a = false := by simpa [leFun] using h1
  have h2' : cmp c b = false := by simpa [leFun] using h2
  simpa [leFun] using cmp_negtrans h1' h2'

/-! ## Locator lemmas -/

theorem beginIdx_le_length (lines : List String) : beginIdx lines ≤ lines.length := by
  cases h : lines.findIdx? isOpenLine with
  | none =>
    have hb : beginIdx lines = lines.length := by unfold beginIdx; rw [h]
    omega
  | some i =>
    have hb : beginIdx lines = i + 1 := by unfold beginIdx; rw [h]
    rcases List.findIdx?_eq_some_iff_getElem.mp h with ⟨hi, -, -⟩
    omega

theorem endIdx_le_length (lines : List String) : endIdx lines ≤ lines.length := by
  cases h : (lines.drop (beginIdx lines)).findIdx? isCloseLine with
  | none =>
    have he : endIdx lines = lines.length := by unfold endIdx; rw [h]
    omega
  | some j =>
    have he : endIdx lines = beginIdx lines + j := by unfold endIdx; rw [h]
    rcases List.findIdx?_eq_some_iff_getElem.mp h with ⟨hj, -, -⟩
    rw [List.length_drop] at hj
    omega

theorem beginIdx_le_endIdx (lines : List String) : beginIdx lines ≤ endIdx lines := by
  cases h : (lines.drop (beginIdx lines)).findIdx? isCloseLine with
  | none =>
    have he : endIdx lines = lines.length := by unfold endIdx; rw [h]
    rw [he]
    exact beginIdx_le_length lines
  | some j =>
    have he : endIdx lines = beginIdx lines + j := by unfold endIdx; rw [h]
    omega

/-- Locating the block in a list of the canonical shape
`noOp ++ op :: (mid ++ post)`: the bounds are exactly around `mid`. -/
theorem locate_shape {noOp mid post : List String} {op : String}
    (hno : ∀ x ∈ noOp, isOpenLine x = false) (hop : isOpenLine op = true)
    (hmid : ∀ x ∈ mid, isCloseLine x = false)
    (hpost : post = [] ∨ ∃ cl post', post = cl :: post' ∧ isCloseLine cl = true) :
    beginIdx (noOp ++ op :: (mid ++ post)) = noOp.length + 1 ∧
    endIdx (noOp ++ op :: (mid ++ post)) = noOp.length + 1 + mid.length := by
  have hfind : (noOp ++ op :: (mid ++ post)).findIdx? isOpenLine = some noOp.length := by
    rw [List.findIdx?_append, List.findIdx?_eq_none_iff.mpr hno]
    simp [hop]
  have hb : beginIdx (noOp ++ op :: (mid ++ post)) = noOp.length + 1 := by
    unfold beginIdx
    rw [hfind]
  refine ⟨hb, ?_⟩
  have hdrop : (noOp ++ op :: (mid ++ post)).drop (noOp.length + 1) = mid ++ post := by
    have : noOp ++ op :: (mid ++ post) = (noOp ++ [op]) ++ (mid ++ post) := by simp
    rw [this]
    exact List.drop_left' (by simp)
  unfold endIdx
  rw [hb, hdrop, List.findIdx?_append, List.findIdx?_eq_none_iff.mpr hmid]
  rcases hpost with rfl | ⟨cl, post', rfl, hcl⟩
  · simp
    omega
  · simp [hcl]

/-- Any list whose located block is nonempty decomposes into the canonical
shape `noOp ++ op :: (mid ++ post)` around its block. -/
theorem locate_decomp (lines : List String)
    (hbe : beginIdx lines < endIdx lines) :
    ∃ noOp op mid post,
      lines = noOp ++ op :: (mid ++ post) ∧
      noOp.length + 1 = beginIdx lines ∧
      mid.length = endIdx lines - beginIdx lines ∧
      (∀ x ∈ noOp, isOpenLine x = false) ∧ isOpenLine op = true ∧
      (∀ x ∈ mid, isCloseLine x = false) ∧
      (post = [] ∨ ∃ cl post', post = cl :: post' ∧ isCloseLine cl = true) := by
  have hel := endIdx_le_length lines
  cases hfind : lines.findIdx? isOpenLine with
  | none =>
    exfalso
    have : beginIdx lines = lines.length := by unfold beginIdx; rw [hfind]
    omega
  | some i =>
    rcases List.findIdx?_eq_some_iff_getElem.mp hfind with ⟨hi, hopi, hnoi⟩
    have hb : beginIdx lines = i + 1 := by unfold beginIdx; rw [hfind]
    refine ⟨lines.take i, lines[i],
      (lines.drop (i + 1)).take (endIdx lines - (i + 1)),
      lines.drop (endIdx lines), ?_, ?_, ?_, ?_, hopi, ?_, ?_⟩
    · have h1 : lines.take (i + 1) = lines.take i ++ [lines[i]] := by
        rw [List.take_succ, List.getElem?_eq_getElem hi]
        rfl
      have h2 : (lines.drop (i + 1)).drop (endIdx lines - (i + 1)) =
          lines.drop (endIdx lines) := by
        rw [List.drop_drop]
        congr 1
        omega
      calc lines = lines.take (i + 1) ++ lines.drop (i + 1) :=
            (List.take_append_drop _ _).symm
        _ = (lines.take i ++ [lines[i]]) ++ lines.drop (i + 1) := by rw [h1]
        _ = (lines.take i ++ [lines[i]]) ++
              ((lines.drop (i + 1)).take (endIdx lines - (i + 1)) ++
                (lines.drop (i + 1)).drop (endIdx lines - (i + 1))) := by
            rw [List.take_append_drop]
        _ = _ := by rw [h2, List.append_assoc]; rfl
    · simp [hb, List.length_take]
      omega
    · simp only [List.length_take, List.length_drop, hb]
      omega
    · intro x hx
      rcases List.mem_iff_getElem.mp hx with ⟨k, hk, hxk⟩
      have hk' : k < i := by
        simp only [List.length_take] at hk
        omega
      rw [List.getElem_take] at hxk
      rw [← hxk]
      simpa using hnoi k hk'
    · intro x hx
      rcases List.mem_iff_getElem.mp hx with ⟨k, hk, hxk⟩
      simp only [List.length_take, List.length_drop] at hk
      have hk' : k < endIdx lines - (i + 1) := by omega
      rw [List.getElem_take, List.getElem_drop] at hxk
      cases hclose : (lines.drop (beginIdx lines)).findIdx? isCloseLine with
      | none =>
        have he : endIdx lines = lines.length := by unfold endIdx; rw [hclose]
        refine List.findIdx?_eq_none_iff.mp hclose x ?_
        rw [← hxk, hb, List.mem_iff_getElem]
        have hlen : i + 1 + k < lines.length := by omega
        refine ⟨k, by simp only [List.length_drop]; omega, ?_⟩
        rw [List.getElem_drop]
      | some j =>
        have he : endIdx lines = beginIdx lines + j := by unfold endIdx; rw [hclose]
        rcases List.findIdx?_eq_some_iff_getElem.mp hclose with ⟨hj, -, hnoj⟩
        have hkj : k < j := by omega
        have hthis := hnoj k hkj
        rw [List.getElem_drop] at hthis
        simp only [Bool.not_eq_true, hb] at hthis
        rw [← hxk]
        exact hthis
    · cases hclose : (lines.drop (beginIdx lines)).findIdx? isCloseLine with
      | none =>
        left
        have he : endIdx lines = lines.length := by unfold endIdx; rw [hclose]
        simp [he]
      | some j =>
        right
        have he : endIdx lines = beginIdx lines + j := by unfold endIdx; rw [hclose]
        rcases List.findIdx?_eq_some_iff_getElem.mp hclose with ⟨hj, hcj, -⟩
        have hjlt : beginIdx lines + j < lines.length := by
          rw [List.length_drop] at hj
          omega
        refine ⟨lines[beginIdx lines + j], lines.drop (beginIdx lines + j + 1), ?_, ?_⟩
        · rw [he]
          exact (List.getElem_cons_drop lines (beginIdx lines + j) hjlt).symm
        · rw [List.getElem_drop] at hcj
          exact hcj

/-! ## Renderer factorization -/

theorem writeLines_pre (b e : Nat) :
    ∀ (A R : List String) (i : Nat), i + A.length ≤ b →
      writeLines b e i (A ++ R) = A.filter keepLine ++ writeLines b e (i + A.length) R := by
  intro A
  induction A with
  | nil => intro R i h; simp
  | cons x A' ih =>
    intro R i h
    simp only [List.length_cons] at h
    have hbi : ¬ b ≤ i := by omega
    show writeLines b e i (x :: (A' ++ R)) = _
    rw [writeLines]
    have hsep : sepAfter b e i x (A' ++ R) = [] := by
      cases A' ++ R with
      | nil => rfl
      | cons y t =>
        rw [sepAfter, if_neg]
        intro hcon
        exact hbi hcon.2.2.1
    rw [hsep, ih R (i + 1) (by omega)]
    have hlen2 : i + (x :: A').length = i + 1 + A'.length := by
      simp only [List.length_cons]
      omega
    rw [hlen2, List.filter_cons]
    by_cases hx : x = g_deleted_line
    · have hk : keepLine x = false := by simp [keepLine, hx]
      rw [if_pos hx, hk]
      simp
    · have hk : keepLine x = true := by simp [keepLine, hx]
      rw [if_neg hx, hk]
      simp

theorem writeLines_post (b e : Nat) :
    ∀ (P : List String) (i : Nat), e ≤ i + 1 →
      writeLines b e i P = P.filter keepLine := by
  intro P
  induction P with
  | nil => intro i h; rfl
  | cons x P' ih =>
    intro i h
    show writeLines b e i (x :: P') = _
    rw [writeLines]
    have hsep : sepAfter b e i x P' = [] := by
      cases P' with
      | nil => rfl
      | cons y t =>
        rw [sepAfter, if_neg]
        intro hcon
        omega
    rw [hsep, ih (i + 1) (by omega), List.filter_cons]
    by_cases hx : x = g_deleted_line
    · have hk : keepLine x = false := by simp [keepLine, hx]
      rw [if_pos hx, hk]
      simp
    · have hk : keepLine x = true := by simp [keepLine, hx]
      rw [if_neg hx, hk]
      simp

theorem writeLines_mid (b e : Nat) :
    ∀ (M P : List String) (i : Nat), b ≤ i → i + M.length = e →
      writeLines b e i (M ++ P) = blockRender M ++ writeLines b e e P := by
  intro M
  induction M with
  | nil =>
    intro P i hb he
    simp only [List.length_nil] at he
    subst he
    simp [blockRender]
  | cons x M' ih =>
    intro P i hb he
    simp only [List.length_cons] at he
    show writeLines b e i (x :: (M' ++ P)) = _
    rw [writeLines]
    cases M' with
    | nil =>
      simp only [List.length_nil] at he
      have hie : i + 1 = e := by omega
      have hsep : sepAfter b e i x ([] ++ P) = [] := by
        cases P with
        | nil => rfl
        | cons y t =>
          rw [List.nil_append, sepAfter, if_neg]
          intro hcon
          omega
      rw [hsep]
      show _ ++ ([] ++ writeLines b e (i + 1) P) = _
      rw [hie]
      simp only [blockRender, List.nil_append]
      by_cases hx : x = g_deleted_line
      · simp [hx]
      · simp [hx]
    | cons y t =>
      simp only [List.length_cons] at he
      have hcond : (x ≠ g_deleted_line ∧ y ≠ g_deleted_line ∧
            b ≤ i ∧ i < e ∧ b ≤ i + 1 ∧ i + 1 < e ∧ needsSeparator x y) ↔
          (x ≠ g_deleted_line ∧ y ≠ g_deleted_line ∧ needsSeparator x y) := by
        constructor
        · rintro ⟨h1, h2, -, -, -, -, h7⟩
          exact ⟨h1, h2, h7⟩
        · rintro ⟨h1, h2, h3⟩
          refine ⟨h1, h2, hb, by omega, by omega, by omega, h3⟩
      have hsep : sepAfter b e i x (y :: t ++ P) =
          (if x ≠ g_deleted_line ∧ y ≠ g_deleted_line ∧ needsSeparator x y
           then [""] else []) := by
        rw [show (y :: t ++ P) = (y :: (t ++ P)) from rfl, sepAfter]
        rw [if_congr hcond rfl rfl]
      rw [hsep]
      rw [show (y :: t ++ P) = ((y :: t) ++ P) from rfl]
      rw [ih P (i + 1) (by omega) (by simp; omega)]
      simp only [blockRender, List.append_assoc]

theorem writeLines_full (b e : Nat) (pre M post : List String)
    (hpre : pre.length = b) (hM : b + M.length = e) :
    writeLines b e 0 (pre ++ (M ++ post)) =
      pre.filter keepLine ++ (blockRender M ++ post.filter keepLine) := by
  rw [writeLines_pre b e pre (M ++ post) 0 (by omega)]
  rw [Nat.zero_add, hpre]
  rw [writeLines_mid b e M post b (le_refl b) hM]
  rw [writeLines_post b e post e (by omega)]

theorem blockRender_replicate (k : Nat) :
    blockRender (List.replicate k g_deleted_line) = [] := by
  induction k with
  | zero => rfl
  | succ k ih =>
    cases k with
    | zero => simp [blockRender, List.replicate]
    | succ k' =>
      rw [List.replicate_succ, List.replicate_succ]
      show blockRender (g_deleted_line :: g_deleted_line ::
        List.replicate k' g_deleted_line) = []
      rw [blockRender]
      rw [if_pos rfl, if_neg (fun hcon => hcon.1 rfl)]
      rw [← List.replicate_succ, ih]
      rfl

theorem blockRender_split :
    ∀ (A : List String), (∀ x ∈ A, x ≠ g_deleted_line) → ∀ (k : Nat),
      blockRender (A ++ List.replicate k g_deleted_line) = intersperseSeps A := by
  intro A
  induction A with
  | nil =>
    intro hA k
    rw [List.nil_append, blockRender_replicate]
    rfl
  | cons x A' ih =>
    intro hA k
    have hx : x ≠ g_deleted_line := hA x (by simp)
    cases A' with
    | nil =>
      cases k with
      | zero =>
        show blockRender [x] = intersperseSeps [x]
        rw [blockRender, if_neg hx]
        rfl
      | succ k' =>
        rw [List.replicate_succ]
        show blockRender (x :: g_deleted_line :: List.replicate k' g_deleted_line) =
          intersperseSeps [x]
        rw [blockRender]
        rw [if_neg hx, if_neg (fun hcon => hcon.2.1 rfl)]
        rw [← List.replicate_succ, blockRender_replicate]
        rfl
    | cons y t =>
      have hy : y ≠ g_deleted_line := hA y (by simp)
      show blockRender (x :: y :: (t ++ List.replicate k g_deleted_line)) =
        intersperseSeps (x :: y :: t)
      rw [blockRender, intersperseSeps]
      rw [if_neg hx]
      rw [show (y :: (t ++ List.replicate k g_deleted_line)) =
        ((y :: t) ++ List.replicate k g_deleted_line) from rfl]
      rw [ih (fun z hz => hA z (by simp [hz])) k]
      by_cases hsep : needsSeparator x y
      · rw [if_pos ⟨hx, hy, hsep⟩, if_pos hsep]
        simp
      · rw [if_neg (fun hcon => hsep hcon.2.2), if_neg hsep]
        simp

/-! ## Splitting a sorted block into survivors and sentinels -/

theorem leFun_del_right {y : String} (h : leFun g_deleted_line y = true) :
    y = g_deleted_line := by
  by_cases hy : y = g_deleted_line
  · exact hy
  · exfalso
    have : cmp y g_deleted_line = true := cmp_del_right hy
    simp [leFun, this] at h

theorem sorted_split (M : List String)
    (hs : M.Pairwise (fun a b => leFun a b = true)) :
    M = M.filter keepLine ++
      List.replicate (M.length - (M.filter keepLine).length) g_deleted_line := by
  induction M with
  | nil => rfl
  | cons x M' ih =>
    rw [List.pairwise_cons] at hs
    obtain ⟨hx, hM'⟩ := hs
    by_cases hdel : x = g_deleted_line
    · subst hdel
      have hall : ∀ y ∈ g_deleted_line :: M', y = g_deleted_line := by
        intro y hy
        rcases List.mem_cons.mp hy with rfl | hy'
        · rfl
        · exact leFun_del_right (hx y hy')
      have hrep := List.eq_replicate_of_mem hall
      have hfil : (g_deleted_line :: M').filter keepLine = [] := by
        rw [List.filter_eq_nil_iff]
        intro a ha
        rw [hall a ha]
        simp [keepLine]
      rw [hfil, List.nil_append, List.length_nil, Nat.sub_zero]
      exact hrep
    · have hkeep : keepLine x = true := by simp [keepLine, hdel]
      have hfil : (x :: M').filter keepLine = x :: M'.filter keepLine := by
        simp [List.filter_cons, hkeep]
      rw [hfil, List.length_cons, List.length_cons]
      have harith : M'.length + 1 - ((M'.filter keepLine).length + 1) =
          M'.length - (M'.filter keepLine).length := by omega
      rw [harith]
      show x :: M' = x :: (M'.filter keepLine ++ _)
      exact congrArg (x :: ·) (ih hM')

/-! ## Structure of a successful `formatFile` run -/

theorem isOpenLine_del : isOpenLine g_deleted_line = false := by decide

theorem isCloseLine_del : isCloseLine g_deleted_line = false := by decide

theorem isCloseLine_empty : isCloseLine "" = false := by decide

theorem mem_intersperseSeps {x : String} :
    ∀ {A : List String}, x ∈ intersperseSeps A → x ∈ A ∨ x = "" := by
  intro A
  induction A with
  | nil => intro h; exact absurd h (by simp [intersperseSeps])
  | cons a A' ih =>
    cases A' with
    | nil =>
      intro h
      rw [show intersperseSeps [a] = [a] from rfl] at h
      exact Or.inl h
    | cons b t =>
      intro h
      rw [intersperseSeps] at h
      rcases List.mem_cons.mp h with rfl | h'
      · exact Or.inl (by simp)
      · rcases List.mem_append.mp h' with hs | hrec
        · by_cases hns : needsSeparator a b
          · rw [if_pos hns] at hs
            right
            simpa using hs
          · rw [if_neg hns] at hs
            exact absurd hs (by simp)
        · rcases ih hrec with h1 | h1
          · exact Or.inl (List.mem_cons_of_mem a h1)
          · exact Or.inr h1

theorem done_structure (lines out : List String)
    (h : formatFile lines = ("done", some out)) :
    ∃ (noOp : List String) (op : String) (mid post M survivors : List String),
      lines = noOp ++ op :: (mid ++ post) ∧
      beginIdx lines = noOp.length + 1 ∧
      endIdx lines = noOp.length + 1 + mid.length ∧
      (∀ x ∈ noOp, isOpenLine x = false) ∧
      isOpenLine op = true ∧
      (∀ x ∈ mid, isCloseLine x = false) ∧
      (post = [] ∨ ∃ cl post', post = cl :: post' ∧ isCloseLine cl = true) ∧
      M = (mid.map (fun s => if isBlankLine s then g_deleted_line else s)).mergeSort
            leFun ∧
      survivors = M.filter keepLine ∧
      M = survivors ++ List.replicate (M.length - survivors.length) g_deleted_line ∧
      survivors.Pairwise (fun a b => leFun a b = true) ∧
      (∀ x ∈ survivors,
        x ≠ g_deleted_line ∧ isBlankLine x = false ∧ isCloseLine x = false ∧
          x ∈ mid) ∧
      out = (noOp.filter keepLine ++ [op]) ++
        (intersperseSeps survivors ++ post.filter keepLine) ∧
      beginIdx out = (noOp.filter keepLine).length + 1 ∧
      endIdx out = (noOp.filter keepLine).length + 1 +
        (intersperseSeps survivors).length := by
  by_cases h0 : lines = []
  · rw [formatFile, if_pos h0] at h
    have hmsg := congrArg Prod.fst h
    simp at hmsg
  · by_cases hbe : endIdx lines ≤ beginIdx lines
    · rw [formatFile, if_neg h0] at h
      simp only [if_pos hbe] at h
      have hmsg := congrArg Prod.fst h
      simp at hmsg
    · have hlt : beginIdx lines < endIdx lines := by omega
      obtain ⟨bv, hbv⟩ : ∃ bv, bv = beginIdx lines := ⟨_, rfl⟩
      obtain ⟨ev, hev⟩ : ∃ ev, ev = endIdx lines := ⟨_, rfl⟩
      have hout : out = writeWithoutDeletedLines
          (sortIncludes bv ev (deleteEmptyLines bv ev lines)) := by
        rw [formatFile, if_neg h0] at h
        simp only [if_neg hbe] at h
        have hsnd := congrArg Prod.snd h
        rw [hbv, hev]
        simpa using hsnd.symm
      obtain ⟨noOp, op, mid, post, hdec, hb, he, hno, hop, hmid, hpost⟩ :=
        locate_decomp lines hlt
      have hb' : bv = noOp.length + 1 := by omega
      have he' : ev = noOp.length + 1 + mid.length := by omega
      have hopdel : op ≠ g_deleted_line := by
        intro hcon
        rw [hcon, isOpenLine_del] at hop
        exact absurd hop (by simp)
      -- slices of the input list
      have hshape1 : lines = (noOp ++ [op]) ++ (mid ++ post) := by
        rw [hdec]
        simp
      have hlen1 : (noOp ++ [op]).length = bv := by
        simp [hb']
      have htake : lines.take bv = noOp ++ [op] := by
        rw [hshape1]
        exact List.take_left' hlen1
      have hdrop : lines.drop bv = mid ++ post := by
        rw [hshape1]
        exact List.drop_left' hlen1
      have hmidlen : mid.length = ev - bv := by omega
      have hmidtake : (mid ++ post).take (ev - bv) = mid :=
        List.take_left' hmidlen
      have hdrope : lines.drop ev = post := by
        have hsh2 : lines = ((noOp ++ [op]) ++ mid) ++ post := by
          rw [hshape1]
          simp
        rw [hsh2]
        refine List.drop_left' ?_
        simp only [List.length_append, List.length_cons, List.length_nil]
        omega
      -- the normalized list
      have hdel : deleteEmptyLines bv ev lines =
          (noOp ++ [op]) ++
            ((mid.map (fun s => if isBlankLine s then g_deleted_line else s)) ++
              post) := by
        rw [deleteEmptyLines, htake, hdrop, hmidtake, hdrope]
        simp
      -- the sorted list
      set dmid := mid.map (fun s => if isBlankLine s then g_deleted_line else s)
        with hdmid
      have hdmidlen : dmid.length = ev - bv := by
        simp [hdmid, hmidlen]
      set M := dmid.mergeSort leFun with hM
      have hdropev2 : List.drop ev ((noOp ++ [op]) ++ (dmid ++ post)) = post := by
        have hsh3 : (noOp ++ [op]) ++ (dmid ++ post) =
            ((noOp ++ [op]) ++ dmid) ++ post := by
          simp
        rw [hsh3]
        refine List.drop_left' ?_
        simp only [List.length_append, List.length_cons, List.length_nil, hdmid,
          List.length_map]
        omega
      have hsort : sortIncludes bv ev (deleteEmptyLines bv ev lines) =
          (noOp ++ [op]) ++ (M ++ post) := by
        rw [sortIncludes, hdel]
        rw [List.take_left' hlen1, List.drop_left' hlen1,
          List.take_left' hdmidlen, hdropev2, ← hM]
        simp [List.append_assoc]
      have hMlen : M.length = mid.length := by
        rw [hM, List.length_mergeSort, hdmid, List.length_map]
      -- membership facts about M
      have hMmem : ∀ x ∈ M, x = g_deleted_line ∨
          (x ∈ mid ∧ isBlankLine x = false) := by
        intro x hx
        rw [hM, List.mem_mergeSort, hdmid] at hx
        rcases List.mem_map.mp hx with ⟨y, hy, hyx⟩
        by_cases hby : isBlankLine y = true
        · rw [if_pos hby] at hyx
          exact Or.inl hyx.symm
        · rw [if_neg hby] at hyx
          right
          rw [← hyx]
          exact ⟨hy, by simpa using hby⟩
      have hMclose : ∀ x ∈ M, isCloseLine x = false := by
        intro x hx
        rcases hMmem x hx with rfl | ⟨hxm, -⟩
        · exact isCloseLine_del
        · exact hmid x hxm
      -- bounds of the sorted list
      have hloc2 := locate_shape hno hop hMclose hpost
      have hl2shape : (noOp ++ [op]) ++ (M ++ post) = noOp ++ op :: (M ++ post) := by
        simp
      -- sortedness and the survivors split
      have hsorted : M.Pairwise (fun a b => leFun a b = true) := by
        rw [hM]
        exact List.sorted_mergeSort leFun_trans leFun_total dmid
      set survivors := M.filter keepLine with hsurv
      have hsplit := sorted_split M hsorted
      have hsurvprop : ∀ x ∈ survivors,
          x ≠ g_deleted_line ∧ isBlankLine x = false ∧ isCloseLine x = false ∧
            x ∈ mid := by
        intro x hx
        rw [hsurv, List.mem_filter] at hx
        obtain ⟨hxM, hxk⟩ := hx
        have hxdel : x ≠ g_deleted_line := by
          intro hcon
          rw [hcon] at hxk
          simp [keepLine] at hxk
        rcases hMmem x hxM with rfl | ⟨hxm, hxb⟩
        · exact absurd rfl hxdel
        · exact ⟨hxdel, hxb, hmid x hxm, hxm⟩
      have hsurvpair : survivors.Pairwise (fun a b => leFun a b = true) :=
        hsorted.sublist (List.filter_sublist M)
      -- the rendered output
      have hrw : out = (noOp.filter keepLine ++ [op]) ++
          (intersperseSeps survivors ++ post.filter keepLine) := by
        rw [hout, hsort, writeWithoutDeletedLines]
        rw [hl2shape]
        rw [hloc2.1, hloc2.2, ← hl2shape]
        have hpre1 : (noOp ++ [op]).length = noOp.length + 1 := by simp
        rw [writeLines_full (noOp.length + 1) (noOp.length + 1 + M.length)
          (noOp ++ [op]) M post hpre1 rfl]
        have hfilpre : (noOp ++ [op]).filter keepLine =
            noOp.filter keepLine ++ [op] := by
          rw [List.filter_append]
          congr 1
          simp [keepLine, hopdel]
        rw [hfilpre]
        have hrender : blockRender M = intersperseSeps survivors := by
          conv_lhs => rw [hsplit]
          exact blockRender_split survivors
            (fun x hx => (hsurvprop x hx).1) _
        rw [hrender]
      -- bounds of the output
      have hnof : ∀ x ∈ noOp.filter keepLine, isOpenLine x = false := by
        intro x hx
        exact hno x (List.mem_of_mem_filter hx)
      have hsepclose : ∀ x ∈ intersperseSeps survivors, isCloseLine x = false := by
        intro x hx
        rcases mem_intersperseSeps hx with h1 | rfl
        · exact (hsurvprop x h1).2.2.1
        · exact isCloseLine_empty
      have hpostf : post.filter keepLine = [] ∨
          ∃ cl post', post.filter keepLine = cl :: post' ∧ isCloseLine cl = true := by
        rcases hpost with rfl | ⟨cl, post', rfl, hcl⟩
        · exact Or.inl rfl
        · right
          have hcldel : cl ≠ g_deleted_line := by
            intro hcon
            rw [hcon, isCloseLine_del] at hcl
            exact absurd hcl (by simp)
          refine ⟨cl, post'.filter keepLine, ?_, hcl⟩
          rw [List.filter_cons]
          simp [keepLine, hcldel]
      have houtshape : out = noOp.filter keepLine ++
          op :: (intersperseSeps survivors ++ post.filter keepLine) := by
        rw [hrw]
        simp
      have hlocout : beginIdx out = (noOp.filter keepLine).length + 1 ∧
          endIdx out = (noOp.filter keepLine).length + 1 +
            (intersperseSeps survivors).length := by
        rcases hpostf with hp0 | ⟨cl, post', hpeq, hcl⟩
        · rw [houtshape, hp0]
          exact locate_shape hnof hop hsepclose (Or.inl rfl)
        · rw [houtshape, hpeq]
          exact locate_shape hnof hop hsepclose (Or.inr ⟨cl, post', rfl, hcl⟩)
      have hbfin : beginIdx lines = noOp.length + 1 := by omega
      have hefin : endIdx lines = noOp.length + 1 + mid.length := by omega
      exact ⟨noOp, op, mid, post, M, survivors, hdec, hbfin, hefin, hno, hop, hmid,
        hpost, hM, hsurv, hsplit, hsurvpair, hsurvprop, hrw, hlocout.1, hlocout.2⟩

/-- The block of the output of a successful run is the interspersion of a
sorted list of non-blank survivors. -/
theorem done_block (lines out : List String)
    (h : formatFile lines = ("done", some out)) :
    ∃ survivors : List String,
      (out.drop (beginIdx out)).take (endIdx out - beginIdx out) =
        intersperseSeps survivors ∧
      (∀ x ∈ survivors, x ≠ g_deleted_line ∧ isBlankLine x = false) ∧
      survivors.Pairwise (fun a b => leFun a b = true) := by
  obtain ⟨noOp, op, mid, post, M, survivors, -, -, -, -, -, -, -, -, -, -,
    hsurvpair, hsurvprop, hrw, hbout, heout⟩ := done_structure lines out h
  refine ⟨survivors, ?_, fun x hx => ⟨(hsurvprop x hx).1, (hsurvprop x hx).2.1⟩,
    hsurvpair⟩
  have hlen : (noOp.filter keepLine ++ [op]).length =
      (noOp.filter keepLine).length + 1 := by simp
  rw [hbout, heout, hrw]
  rw [List.drop_left' hlen]
  have harith : (noOp.filter keepLine).length + 1 +
      (intersperseSeps survivors).length -
      ((noOp.filter keepLine).length + 1) = (intersperseSeps survivors).length := by
    omega
  rw [harith]
  exact List.take_left' rfl

/-- Interspersing separators preserves a pairwise property, guarded on
both lines being nonempty, provided the input lines are nonempty. -/
theorem intersperseSeps_pairwise {P : String → String → Prop} :
    ∀ {A : List String}, (∀ x ∈ A, x ≠ "") → A.Pairwise P →
      (intersperseSeps A).Pairwise (fun x y => x ≠ "" → y ≠ "" → P x y) := by
  intro A
  induction A with
  | nil => intro _ _; exact List.Pairwise.nil
  | cons a A' ih =>
    intro hne hp
    rw [List.pairwise_cons] at hp
    obtain ⟨ha, hp'⟩ := hp
    cases A' with
    | nil => exact List.pairwise_singleton _ _
    | cons b t =>
      rw [intersperseSeps, List.pairwise_cons]
      constructor
      · intro y hy hna hny
        rcases List.mem_append.mp hy with hs | hrec
        · exfalso
          apply hny
          by_cases hns : needsSeparator a b
          · rw [if_pos hns] at hs
            simpa using hs
          · rw [if_neg hns] at hs
            exact absurd hs (by simp)
        · rcases mem_intersperseSeps hrec with h1 | rfl
          · exact ha y h1
          · exact absurd rfl hny
      · rw [List.pairwise_append]
        refine ⟨?_, ih (fun x hx => hne x (List.mem_cons_of_mem a hx)) hp', ?_⟩
        · by_cases hns : needsSeparator a b
          · rw [if_pos hns]
            exact List.pairwise_singleton _ _
          · rw [if_neg hns]
            exact List.Pairwise.nil
        · intro x hx y hy hnx hny
          exfalso
          apply hnx
          by_cases hns : needsSeparator a b
          · rw [if_pos hns] at hx
            simpa using hx
          · rw [if_neg hns] at hx
            exact absurd hx (by simp)

theorem leFun_refl (a : String) : leFun a a = true := by
  simp [leFun, cmp_irrefl]

theorem mem_intersperseSeps_of_mem {x : String} :
    ∀ {A : List String}, x ∈ A → x ∈ intersperseSeps A := by
  intro A
  induction A with
  | nil => intro h; exact absurd h (by simp)
  | cons a A' ih =>
    intro h
    cases A' with
    | nil =>
      rw [show intersperseSeps [a] = [a] from rfl]
      exact h
    | cons b t =>
      rw [intersperseSeps]
      rcases List.mem_cons.mp h with rfl | h'
      · exact List.mem_cons_self _ _
      · exact List.mem_cons_of_mem a (List.mem_append_right _ (ih h'))

/-- Two sorted lists that are permutations of each other are equal, when
any two equivalent members of the first are already equal: sortedness and
the permutation are exactly what the `std::sort` contract guarantees, so
under this tie-freedom condition every conforming sort output is the same
list. -/
theorem sorted_antisymm_unique :
    ∀ (l₁ : List String) {l₂ : List String}, l₁.Perm l₂ →
      l₁.Pairwise (fun a b => leFun a b = true) →
      l₂.Pairwise (fun a b => leFun a b = true) →
      (∀ a ∈ l₁, ∀ b ∈ l₁, leFun a b = true → leFun b a = true → a = b) →
      l₁ = l₂ := by
  intro l₁
  induction l₁ with
  | nil =>
    intro l₂ hperm _ _ _
    exact hperm.nil_eq
  | cons a t₁ ih =>
    intro l₂ hperm hp1 hp2 hanti
    have ha2 : a ∈ l₂ := hperm.subset (List.mem_cons_self a t₁)
    obtain ⟨u, v, rfl⟩ := List.append_of_mem ha2
    have hua : ∀ x ∈ u, x = a := by
      intro x hxu
      have hx1 : x ∈ a :: t₁ := hperm.symm.subset (by simp [hxu])
      have hlax : leFun a x = true := by
        rcases List.mem_cons.mp hx1 with rfl | hxt
        · exact leFun_refl x
        · exact (List.pairwise_cons.mp hp1).1 x hxt
      have hlxa : leFun x a = true :=
        (List.pairwise_append.mp hp2).2.2 x hxu a (by simp)
      exact hanti x hx1 a (by simp) hlxa hlax
    have hurep : u = List.replicate u.length a := List.eq_replicate_of_mem hua
    have hshift : u ++ a :: v = a :: (u ++ v) := by
      rw [hurep]
      rw [show (a :: v : List String) = [a] ++ v from rfl]
      rw [← List.append_assoc, ← List.replicate_succ', List.replicate_succ]
      rfl
    rw [hshift] at hperm hp2 ⊢
    have hperm' : t₁.Perm (u ++ v) := hperm.cons_inv
    have hp1' := (List.pairwise_cons.mp hp1).2
    have hp2' := (List.pairwise_cons.mp hp2).2
    have hanti' : ∀ x ∈ t₁, ∀ y ∈ t₁,
        leFun x y = true → leFun y x = true → x = y :=
      fun x hx y hy =>
        hanti x (List.mem_cons_of_mem a hx) y (List.mem_cons_of_mem a hy)
    rw [ih hperm' hp1' hp2' hanti']

/-- Sorting a list whose kept sublist is already sorted and free of
distinct equivalent members moves the sentinels to the end and leaves the
survivors in place. The proof uses only the permutation and sortedness of
`mergeSort` — the `std::sort` postconditions — so it holds for any
conforming sort. -/
theorem contract_sort_split (L A : List String)
    (hA : L.filter keepLine = A)
    (hp : A.Pairwise (fun a b => leFun a b = true))
    (hanti : ∀ a ∈ A, ∀ b ∈ A, leFun a b = true → leFun b a = true → a = b) :
    L.mergeSort leFun = A ++ List.replicate (L.length - A.length) g_deleted_line := by
  have hsorted : (L.mergeSort leFun).Pairwise (fun a b => leFun a b = true) :=
    List.sorted_mergeSort leFun_trans leFun_total L
  have hsplit := sorted_split (L.mergeSort leFun) hsorted
  have hfilpair : ((L.mergeSort leFun).filter keepLine).Pairwise
      (fun a b => leFun a b = true) :=
    hsorted.sublist (List.filter_sublist _)
  have hperm : A.Perm ((L.mergeSort leFun).filter keepLine) := by
    rw [← hA]
    exact (List.Perm.filter keepLine (List.mergeSort_perm L leFun)).symm
  have hfeq : A = (L.mergeSort leFun).filter keepLine :=
    sorted_antisymm_unique A hperm hp hfilpair hanti
  rw [← hfeq] at hsplit
  rw [hsplit]
  congr 2
  have hlen : (L.mergeSort leFun).length = L.length := List.length_mergeSort L
  omega

/-- Replacing blank lines in an interspersed block by the sentinel and
filtering the sentinels away recovers exactly the survivors. -/
theorem intersperseSeps_map_filter :
    ∀ (A : List String), (∀ x ∈ A, x ≠ g_deleted_line ∧ isBlankLine x = false) →
      ((intersperseSeps A).map
          (fun s => if isBlankLine s then g_deleted_line else s)).filter keepLine =
        A := by
  intro A
  induction A with
  | nil => intro _; rfl
  | cons a A' ih =>
    intro hA
    obtain ⟨hadel, hablank⟩ := hA a (by simp)
    have hfa : (if isBlankLine a then g_deleted_line else a) = a :=
      if_neg (by simp [hablank])
    have hka : keepLine a = true := by simp [keepLine, hadel]
    cases A' with
    | nil =>
      show ((intersperseSeps [a]).map
        (fun s => if isBlankLine s then g_deleted_line else s)).filter keepLine = [a]
      rw [show intersperseSeps [a] = [a] from rfl]
      rw [List.map_cons, List.map_nil, hfa, List.filter_cons_of_pos hka]
      rfl
    | cons b t =>
      rw [intersperseSeps, List.map_cons, List.map_append, hfa,
        List.filter_cons_of_pos hka, List.filter_append]
      have hsep : ((if needsSeparator a b then [""] else []).map
          (fun s => if isBlankLine s then g_deleted_line else s)).filter keepLine =
          [] := by
        by_cases hns : needsSeparator a b
        · rw [if_pos hns]
          rw [show (([""] : List String).map
            (fun s => if isBlankLine s then g_deleted_line else s)) =
              [g_deleted_line] from by
            rw [List.map_cons, List.map_nil, if_pos (by decide)]]
          refine List.filter_cons_of_neg ?_
          simp [keepLine]
        · rw [if_neg hns]
          rfl
      rw [hsep, List.nil_append]
      exact congrArg (a :: ·) (ih (fun x hx => hA x (List.mem_cons_of_mem a hx)))

/-! ## Claim theorems -/

/-- C6: `moduleType` is total (a function into the four categories) and
applies the classification rules in fixed precedence: ThirdParty on a
third-party substring, else Platform on `"platform/`, else StandardLibrary
for a non-blank, non-sentinel line not starting (after whitespace removal)
with `//`, else None — as captured by `classifySpec`. -/
theorem moduleType_eq_classifySpec (s : String) : moduleType s = classifySpec s := by
  rw [moduleType, classifySpec]
  by_cases h1 : isThirdPartyModule s = true
  · rw [if_pos h1, if_pos h1]
  · rw [if_neg h1, if_neg h1]
    by_cases h2 : isPlatformModule s = true
    · rw [if_pos h2, if_pos h2]
    · rw [if_neg h2, if_neg h2]
      have hstd : isStdLibModule s = true ↔
          (isBlankLine s = false ∧ s ≠ g_deleted_line ∧
            "//".data.isPrefixOf (removeSpaces s).data = false) := by
        rw [isStdLibModule]
        by_cases a : s = ""
        · rw [if_pos a]
          simp [a, isBlankLine]
        · rw [if_neg a]
          by_cases b : s.data.all isSpaceChar = true
          · rw [if_pos b]
            simp [isBlankLine, b]
          · rw [if_neg b]
            by_cases c : s = g_deleted_line
            · rw [if_pos c]
              simp [c]
            · rw [if_neg c]
              rw [if_neg h1, if_neg h2]
              by_cases d : "//".data.isPrefixOf (removeSpaces s).data = true
              · rw [if_pos d]
                simp [d]
              · rw [if_neg d]
                have hbl : isBlankLine s = false := by
                  simp [isBlankLine, a, b]
                simp [hbl, c, d]
      by_cases h3 : isStdLibModule s = true
      · rw [if_pos h3, if_pos (hstd.mp h3)]
      · rw [if_neg h3, if_neg (fun hc => h3 (hstd.mpr hc))]

/-- C8: under the comparator, every non-sentinel line sorts strictly before
the sentinel, two sentinels are unordered in both directions, and `cmp` is a
strict weak ordering: irreflexive, transitive, with transitive
incomparability. -/
theorem cmp_strict_weak_order :
    (∀ x : String, x ≠ g_deleted_line →
      cmp g_deleted_line x = false ∧ cmp x g_deleted_line = true) ∧
    cmp g_deleted_line g_deleted_line = false ∧
    (∀ x : String, cmp x x = false) ∧
    (∀ x y z : String, cmp x y = true → cmp y z = true → cmp x z = true) ∧
    (∀ x y z : String, cmp x y = false → cmp y x = false →
      cmp y z = false → cmp z y = false → cmp x z = false ∧ cmp z x = false) := by
  refine ⟨fun x hx => ⟨cmp_del_left x, cmp_del_right hx⟩, cmp_del_left _,
    cmp_irrefl, fun x y z => cmp_trans, ?_⟩
  intro x y z hxy hyx hyz hzy
  exact ⟨cmp_negtrans hyz hxy, cmp_negtrans hyx hzy⟩

theorem cmp_strict_weak_order_witness :
    cmp g_deleted_line "\"fmt\"" = false ∧ cmp "\"fmt\"" g_deleted_line = true :=
  cmp_strict_weak_order.1 "\"fmt\"" (by decide)

/-- C10: on a line with no quotation mark, `removeUserModuleName` is the
identity, so inside a category such a line is compared by its full
whitespace-stripped text. -/
theorem removeUserModuleName_no_quote :
    (∀ s : String, ('"' ∈ s.data → False) → removeUserModuleName s = s) ∧
    (∀ x y : String, x ≠ g_deleted_line → y ≠ g_deleted_line →
      moduleType x = moduleType y →
      ('"' ∈ (removeSpaces x).data → False) →
      ('"' ∈ (removeSpaces y).data → False) →
      cmp x y = strLt (removeSpaces x) (removeSpaces y)) := by
  have hid : ∀ s : String, ('"' ∈ s.data → False) → removeUserModuleName s = s := by
    intro s hq
    rw [removeUserModuleName, if_neg]
    intro hc
    exact hq (by simpa using hc)
  refine ⟨hid, ?_⟩
  intro x y hx hy ht hqx hqy
  rw [cmp, if_neg (fun hc => hx hc.1), if_neg hx, if_neg hy,
    if_neg (by simp [ht]), hid _ hqx, hid _ hqy]

theorem removeUserModuleName_no_quote_witness :
    removeUserModuleName "fmt" = "fmt" ∧
    cmp "foo" "bar" = strLt "foo" "bar" := by
  constructor
  · exact removeUserModuleName_no_quote.1 "fmt" (by decide)
  · have h := removeUserModuleName_no_quote.2 "foo" "bar" (by decide) (by decide)
      (by decide) (by decide) (by decide)
    rw [h]
    rw [show removeSpaces "foo" = "foo" from by decide,
      show removeSpaces "bar" = "bar" from by decide]

/-- C7: an empty line list is reported `failed to read from file` with no
write; a nonempty list without an import block (`end <= begin`) is reported
`no includes found` with no write; and the batch processes every other file
unaffected, each file independently. -/
theorem per_file_errors :
    formatFile [] = ("failed to read from file", none) ∧
    (∀ lines : List String, lines ≠ [] → endIdx lines ≤ beginIdx lines →
      formatFile lines = ("no includes found", none)) ∧
    (∀ files1 files2 : List (List String), ∀ f : List String,
      processBatch (files1 ++ f :: files2) =
        processBatch files1 ++ formatFile f :: processBatch files2) := by
  refine ⟨rfl, ?_, ?_⟩
  · intro lines h0 hle
    rw [formatFile, if_neg h0]
    simp only [if_pos hle]
  · intro files1 files2 f
    simp [processBatch]

theorem per_file_errors_witness :
    formatFile ["package main"] = ("no includes found", none) ∧
    processBatch [[], ["package main"]] =
      [("failed to read from file", none), ("no includes found", none)] := by
  constructor
  · exact per_file_errors.2.1 ["package main"] (by decide) (by decide)
  · have h2 : formatFile ["package main"] = ("no includes found", none) :=
      per_file_errors.2.1 ["package main"] (by decide) (by decide)
    show formatFile [] :: formatFile ["package main"] :: [] = _
    rw [per_file_errors.1, h2]

/-- C5: the block locator returns `begin` immediately after the first line
normalizing to `import(` (or the length when there is none), `end` as the
first index at or past `begin` whose line normalizes to `)` (or the
length), always `begin <= end` within bounds; and a nonempty file with
`begin >= end` is reported `no includes found` and not written. -/
theorem locator_spec (lines : List String) :
    (beginIdx lines ≤ lines.length ∧ endIdx lines ≤ lines.length ∧
      beginIdx lines ≤ endIdx lines) ∧
    ((∀ i (hi : i < lines.length), isOpenLine (lines.get ⟨i, hi⟩) = false) →
      beginIdx lines = lines.length) ∧
    (∀ i (hi : i < lines.length), isOpenLine (lines.get ⟨i, hi⟩) = true →
      (∀ j (hj : j < i), isOpenLine (lines.get ⟨j, Nat.lt_trans hj hi⟩) = false) →
      beginIdx lines = i + 1) ∧
    ((∀ i (hi : i < lines.length), beginIdx lines ≤ i →
        isCloseLine (lines.get ⟨i, hi⟩) = false) →
      endIdx lines = lines.length) ∧
    (∀ i (hi : i < lines.length), beginIdx lines ≤ i →
      isCloseLine (lines.get ⟨i, hi⟩) = true →
      (∀ j (hj : j < i), beginIdx lines ≤ j →
        isCloseLine (lines.get ⟨j, Nat.lt_trans hj hi⟩) = false) →
      endIdx lines = i) ∧
    (lines ≠ [] → endIdx lines ≤ beginIdx lines →
      formatFile lines = ("no includes found", none)) := by
  refine ⟨⟨beginIdx_le_length lines, endIdx_le_length lines,
    beginIdx_le_endIdx lines⟩, ?_, ?_, ?_, ?_, ?_⟩
  · intro hall
    have hnone : lines.findIdx? isOpenLine = none := by
      rw [List.findIdx?_eq_none_iff]
      intro x hx
      rcases List.mem_iff_getElem.mp hx with ⟨k, hk, rfl⟩
      exact hall k hk
    unfold beginIdx
    rw [hnone]
  · intro i hi hopen hmin
    have hsome : lines.findIdx? isOpenLine = some i := by
      rw [List.findIdx?_eq_some_iff_getElem]
      exact ⟨hi, hopen, fun j hj => by simpa using hmin j hj⟩
    unfold beginIdx
    rw [hsome]
  · intro hall
    have hnone : (lines.drop (beginIdx lines)).findIdx? isCloseLine = none := by
      rw [List.findIdx?_eq_none_iff]
      intro x hx
      rcases List.mem_iff_getElem.mp hx with ⟨k, hk, rfl⟩
      rw [List.length_drop] at hk
      rw [List.getElem_drop]
      exact hall (beginIdx lines + k) (by omega) (by omega)
    unfold endIdx
    rw [hnone]
  · intro i hi hbi hclose hmin
    obtain ⟨k, rfl⟩ : ∃ k, i = beginIdx lines + k := ⟨i - beginIdx lines, by omega⟩
    have hsome : (lines.drop (beginIdx lines)).findIdx? isCloseLine = some k := by
      rw [List.findIdx?_eq_some_iff_getElem]
      refine ⟨by rw [List.length_drop]; omega, ?_, ?_⟩
      · rw [List.getElem_drop]
        exact hclose
      · intro j hj
        rw [List.getElem_drop]
        have := hmin (beginIdx lines + j) (by omega) (by omega)
        simpa using this
    unfold endIdx
    rw [hsome]
  · intro h0 hle
    rw [formatFile, if_neg h0]
    simp only [if_pos hle]

theorem locator_spec_witness :
    beginIdx ["import(", "\"a\"", ")"] = 1 ∧
    endIdx ["import(", "\"a\"", ")"] = 2 ∧
    formatFile ["package main"] = ("no includes found", none) := by
  refine ⟨?_, ?_, ?_⟩
  · have hi : (0:Nat) < (["import(", "\"a\"", ")"] : List String).length := by decide
    exact (locator_spec ["import(", "\"a\"", ")"]).2.2.1 0 hi
      (by exact (by decide : isOpenLine "import(" = true))
      (fun j hj => absurd hj (by omega))
  · have hi : (2:Nat) < (["import(", "\"a\"", ")"] : List String).length := by decide
    refine (locator_spec ["import(", "\"a\"", ")"]).2.2.2.2.1 2 hi (by decide)
      (by exact (by decide : isCloseLine ")" = true)) ?_
    intro j hj hbj
    have hb : beginIdx ["import(", "\"a\"", ")"] = 1 := by decide
    rw [hb] at hbj
    have hj1 : j = 1 := by omega
    subst hj1
    exact (by decide : isCloseLine "\"a\"" = false)
  · exact (locator_spec ["package main"]).2.2.2.2.2 (by decide) (by decide)

/-- C1: in the rewritten block of a file reported `done`, any two
non-separator lines are ordered: lower category rank first when the
categories differ, and non-decreasing whitespace-stripped, alias-stripped
keys when the categories agree. -/
theorem block_order (lines out : List String)
    (h : formatFile lines = ("done", some out)) :
    ((out.drop (beginIdx out)).take (endIdx out - beginIdx out)).Pairwise
      (fun x y => x ≠ "" → y ≠ "" →
        (moduleType x ≠ moduleType y →
          (moduleType x).toNat < (moduleType y).toNat) ∧
        (moduleType x = moduleType y →
          strLt (pathKey y) (pathKey x) = false)) := by
  obtain ⟨survivors, hslice, hprops, hpair⟩ := done_block lines out h
  rw [hslice]
  have hP : survivors.Pairwise (fun x y =>
      (moduleType x ≠ moduleType y →
        (moduleType x).toNat < (moduleType y).toNat) ∧
      (moduleType x = moduleType y →
        strLt (pathKey y) (pathKey x) = false)) := by
    refine hpair.imp_of_mem ?_
    intro a b ha hb hle
    have hadel := (hprops a ha).1
    have hbdel := (hprops b hb).1
    have hcmp : cmp b a = false := by simpa [leFun] using hle
    have hncmp : ¬ (cmp b a = true) := by simp [hcmp]
    rw [cmp_nondel hbdel hadel] at hncmp
    push_neg at hncmp
    obtain ⟨hrk, hkey⟩ := hncmp
    constructor
    · intro hne
      have hne' : rank a ≠ rank b := fun hc => hne (toNat_inj hc)
      show rank a < rank b
      omega
    · intro heq
      have h2 : ¬ (strLt (pathKey b) (pathKey a) = true) := by
        rw [strLt_iff_lt]
        exact not_lt.mpr (hkey heq.symm)
      exact Bool.eq_false_iff.mpr h2
  have hne : ∀ x ∈ survivors, x ≠ "" := by
    intro x hx hc
    have hbl := (hprops x hx).2
    rw [hc] at hbl
    exact absurd hbl (by decide)
  exact intersperseSeps_pairwise hne hP

theorem block_order_witness :
    formatFile ["import(", "\"b\"", ")"] = ("done", some ["import(", "\"b\"", ")"]) ∧
    ((["import(", "\"b\"", ")"].drop (beginIdx ["import(", "\"b\"", ")"])).take
        (endIdx ["import(", "\"b\"", ")"] - beginIdx ["import(", "\"b\"", ")"])).Pairwise
      (fun x y => x ≠ "" → y ≠ "" →
        (moduleType x ≠ moduleType y →
          (moduleType x).toNat < (moduleType y).toNat) ∧
        (moduleType x = moduleType y →
          strLt (pathKey y) (pathKey x) = false)) := by
  have hff : formatFile ["import(", "\"b\"", ")"] =
      ("done", some ["import(", "\"b\"", ")"]) := by
    simp +decide [formatFile, beginIdx, endIdx, deleteEmptyLines, sortIncludes,
      writeWithoutDeletedLines, writeLines, sepAfter, List.findIdx?]
  exact ⟨hff, block_order ["import(", "\"b\"", ")"] ["import(", "\"b\"", ")"] hff⟩

/-- C2: the rewritten block of a file reported `done` is exactly a list of
non-blank surviving lines with one blank line inserted between adjacent
survivors of different non-`None` categories (`intersperseSeps`), and no
other blank or whitespace-only line remains inside the block. -/
theorem block_separators (lines out : List String)
    (h : formatFile lines = ("done", some out)) :
    ∃ survivors : List String,
      (out.drop (beginIdx out)).take (endIdx out - beginIdx out) =
        intersperseSeps survivors ∧
      (∀ x ∈ survivors, isBlankLine x = false) ∧
      (∀ x y : String, needsSeparator x y = true ↔
        (moduleType x ≠ ModuleType.None ∧ moduleType y ≠ ModuleType.None ∧
          moduleType x ≠ moduleType y)) := by
  obtain ⟨survivors, hslice, hprops, -⟩ := done_block lines out h
  refine ⟨survivors, hslice, fun x hx => (hprops x hx).2, fun x y => ?_⟩
  simp [needsSeparator, and_assoc]

theorem block_separators_witness :
    ∃ survivors : List String,
      ((["import(", "\"b\"", ")"].drop (beginIdx ["import(", "\"b\"", ")"])).take
        (endIdx ["import(", "\"b\"", ")"] - beginIdx ["import(", "\"b\"", ")"])) =
        intersperseSeps survivors ∧
      (∀ x ∈ survivors, isBlankLine x = false) ∧
      (∀ x y : String, needsSeparator x y = true ↔
        (moduleType x ≠ ModuleType.None ∧ moduleType y ≠ ModuleType.None ∧
          moduleType x ≠ moduleType y)) := by
  have hff : formatFile ["import(", "\"b\"", ")"] =
      ("done", some ["import(", "\"b\"", ")"]) := by
    simp +decide [formatFile, beginIdx, endIdx, deleteEmptyLines, sortIncludes,
      writeWithoutDeletedLines, writeLines, sepAfter, List.findIdx?]
  exact block_separators ["import(", "\"b\"", ")"] ["import(", "\"b\"", ")"] hff

/-- C4 counterexample: a file whose text outside the block contains the
literal sentinel string is rewritten with that outside line dropped, so not
every line outside `[begin, end)` is emitted. -/
theorem untouched_outside_counterexample :
    formatFile ["import(", "\"fmt\"", ")", g_deleted_line] =
      ("done", some ["import(", "\"fmt\"", ")"]) ∧
    beginIdx ["import(", "\"fmt\"", ")", g_deleted_line] = 1 ∧
    endIdx ["import(", "\"fmt\"", ")", g_deleted_line] = 2 ∧
    g_deleted_line ∉ (["import(", "\"fmt\"", ")"] : List String) := by
  refine ⟨?_, by decide, by decide, by decide⟩
  simp +decide [formatFile, beginIdx, endIdx, deleteEmptyLines, sortIncludes,
    writeWithoutDeletedLines, writeLines, sepAfter, List.findIdx?, g_deleted_line]

/-- C4 (amended): in a file reported `done`, the regions outside the located
block are emitted byte-identical and in order, except that any outside line
whose text equals the sentinel string is dropped. -/
theorem untouched_outside_block (lines out : List String)
    (h : formatFile lines = ("done", some out)) :
    out.take (beginIdx out) = (lines.take (beginIdx lines)).filter keepLine ∧
    out.drop (endIdx out) = (lines.drop (endIdx lines)).filter keepLine := by
  obtain ⟨noOp, op, mid, post, M, survivors, hdec, hb, he, hno, hop, hmid, hpost,
    hM, hsurv, hsplit, hsurvpair, hsurvprop, hrw, hbout, heout⟩ :=
    done_structure lines out h
  have hopdel : op ≠ g_deleted_line := by
    intro hcon
    rw [hcon, isOpenLine_del] at hop
    exact absurd hop (by simp)
  have hkop : keepLine op = true := by simp [keepLine, hopdel]
  constructor
  · have htakein : lines.take (beginIdx lines) = noOp ++ [op] := by
      rw [hb, hdec]
      rw [show noOp ++ op :: (mid ++ post) = (noOp ++ [op]) ++ (mid ++ post)
        from by simp]
      exact List.take_left' (by simp)
    have htakeout : out.take (beginIdx out) = noOp.filter keepLine ++ [op] := by
      rw [hbout, hrw]
      exact List.take_left' (by simp)
    rw [htakein, htakeout, List.filter_append]
    congr 1
    rw [List.filter_cons_of_pos hkop]
    rfl
  · have hdropin : lines.drop (endIdx lines) = post := by
      rw [he, hdec]
      rw [show noOp ++ op :: (mid ++ post) = ((noOp ++ [op]) ++ mid) ++ post
        from by simp]
      refine List.drop_left' ?_
      simp only [List.length_append, List.length_cons, List.length_nil]
    have hdropout : out.drop (endIdx out) = post.filter keepLine := by
      rw [heout, hrw]
      rw [show (noOp.filter keepLine ++ [op]) ++
          (intersperseSeps survivors ++ post.filter keepLine) =
          ((noOp.filter keepLine ++ [op]) ++ intersperseSeps survivors) ++
            post.filter keepLine from by simp]
      refine List.drop_left' ?_
      simp only [List.length_append, List.length_cons, List.length_nil]
    rw [hdropin, hdropout]

theorem untouched_outside_block_witness :
    (["import(", "\"b\"", ")"] : List String).take
      (beginIdx ["import(", "\"b\"", ")"]) =
      ((["import(", "\"b\"", ")"] : List String).take
        (beginIdx ["import(", "\"b\"", ")"])).filter keepLine ∧
    (["import(", "\"b\"", ")"] : List String).drop
      (endIdx ["import(", "\"b\"", ")"]) =
      ((["import(", "\"b\"", ")"] : List String).drop
        (endIdx ["import(", "\"b\"", ")"])).filter keepLine := by
  have hff : formatFile ["import(", "\"b\"", ")"] =
      ("done", some ["import(", "\"b\"", ")"]) := by
    simp +decide [formatFile, beginIdx, endIdx, deleteEmptyLines, sortIncludes,
      writeWithoutDeletedLines, writeLines, sepAfter, List.findIdx?]
  exact untouched_outside_block ["import(", "\"b\"", ")"] ["import(", "\"b\"", ")"] hff

/-- C9: for a file with a nonempty block, the locator returns the same
`(begin, end)` after blank-line normalization and again after sorting the
range: the delimiters lie outside the mutated range, no line inside it
normalizes to `)`, and the sentinel never normalizes to a delimiter. -/
theorem bounds_invariant (lines : List String)
    (hlt : beginIdx lines < endIdx lines) :
    beginIdx (deleteEmptyLines (beginIdx lines) (endIdx lines) lines) =
      beginIdx lines ∧
    endIdx (deleteEmptyLines (beginIdx lines) (endIdx lines) lines) =
      endIdx lines ∧
    beginIdx (sortIncludes (beginIdx lines) (endIdx lines)
      (deleteEmptyLines (beginIdx lines) (endIdx lines) lines)) = beginIdx lines ∧
    endIdx (sortIncludes (beginIdx lines) (endIdx lines)
      (deleteEmptyLines (beginIdx lines) (endIdx lines) lines)) = endIdx lines ∧
    removeComments (removeSpaces g_deleted_line) ≠ "import(" ∧
    removeComments (removeSpaces g_deleted_line) ≠ ")" := by
  obtain ⟨bv, hbv⟩ : ∃ bv, bv = beginIdx lines := ⟨_, rfl⟩
  obtain ⟨ev, hev⟩ : ∃ ev, ev = endIdx lines := ⟨_, rfl⟩
  obtain ⟨noOp, op, mid, post, hdec, hb, he, hno, hop, hmid, hpost⟩ :=
    locate_decomp lines hlt
  have hb' : bv = noOp.length + 1 := by omega
  have he' : ev = noOp.length + 1 + mid.length := by omega
  have hshape1 : lines = (noOp ++ [op]) ++ (mid ++ post) := by
    rw [hdec]
    simp
  have hlen1 : (noOp ++ [op]).length = bv := by
    simp [hb']
  have htake : lines.take bv = noOp ++ [op] := by
    rw [hshape1]
    exact List.take_left' hlen1
  have hdrop : lines.drop bv = mid ++ post := by
    rw [hshape1]
    exact List.drop_left' hlen1
  have hmidlen : mid.length = ev - bv := by omega
  have hmidtake : (mid ++ post).take (ev - bv) = mid :=
    List.take_left' hmidlen
  have hdrope : lines.drop ev = post := by
    have hsh2 : lines = ((noOp ++ [op]) ++ mid) ++ post := by
      rw [hshape1]
      simp
    rw [hsh2]
    refine List.drop_left' ?_
    simp only [List.length_append, List.length_cons, List.length_nil]
    omega
  have hdel : deleteEmptyLines bv ev lines =
      (noOp ++ [op]) ++
        ((mid.map (fun s => if isBlankLine s then g_deleted_line else s)) ++
          post) := by
    rw [deleteEmptyLines, htake, hdrop, hmidtake, hdrope]
    simp
  set dmid := mid.map (fun s => if isBlankLine s then g_deleted_line else s)
    with hdmid
  have hdmidlen : dmid.length = ev - bv := by
    simp [hdmid, hmidlen]
  have hdmidclose : ∀ x ∈ dmid, isCloseLine x = false := by
    intro x hx
    rcases List.mem_map.mp hx with ⟨y, hy, hyx⟩
    by_cases hby : isBlankLine y = true
    · rw [if_pos hby] at hyx
      rw [← hyx]
      exact isCloseLine_del
    · rw [if_neg hby] at hyx
      rw [← hyx]
      exact hmid y hy
  have hdropev2 : List.drop ev ((noOp ++ [op]) ++ (dmid ++ post)) = post := by
    have hsh3 : (noOp ++ [op]) ++ (dmid ++ post) =
        ((noOp ++ [op]) ++ dmid) ++ post := by
      simp
    rw [hsh3]
    refine List.drop_left' ?_
    simp only [List.length_append, List.length_cons, List.length_nil, hdmid,
      List.length_map]
    omega
  set M := dmid.mergeSort leFun with hM
  have hsort : sortIncludes bv ev (deleteEmptyLines bv ev lines) =
      (noOp ++ [op]) ++ (M ++ post) := by
    rw [sortIncludes, hdel]
    rw [List.take_left' hlen1, List.drop_left' hlen1,
      List.take_left' hdmidlen, hdropev2, ← hM]
    simp [List.append_assoc]
  have hMclose : ∀ x ∈ M, isCloseLine x = false := by
    intro x hx
    rw [hM, List.mem_mergeSort] at hx
    exact hdmidclose x hx
  have hdelshape : (noOp ++ [op]) ++ (dmid ++ post) =
      noOp ++ op :: (dmid ++ post) := by
    simp
  have hsortshape : (noOp ++ [op]) ++ (M ++ post) =
      noOp ++ op :: (M ++ post) := by
    simp
  have hloc1 := locate_shape hno hop hdmidclose hpost
  have hloc2 := locate_shape hno hop hMclose hpost
  have hMlen : M.length = dmid.length := by
    rw [hM, List.length_mergeSort]
  refine ⟨?_, ?_, ?_, ?_, by decide, by decide⟩
  · rw [← hbv, ← hev, hdel, hdelshape, hloc1.1]
    omega
  · rw [← hbv, ← hev, hdel, hdelshape, hloc1.2]
    simp only [hdmid, List.length_map]
    omega
  · rw [← hbv, ← hev, hsort, hsortshape, hloc2.1]
    omega
  · rw [← hbv, ← hev, hsort, hsortshape, hloc2.2]
    rw [hMlen]
    simp only [hdmid, List.length_map]
    omega

theorem bounds_invariant_witness :
    beginIdx ["import(", "\"a\"", ")"] < endIdx ["import(", "\"a\"", ")"] ∧
    beginIdx (sortIncludes (beginIdx ["import(", "\"a\"", ")"])
      (endIdx ["import(", "\"a\"", ")"])
      (deleteEmptyLines (beginIdx ["import(", "\"a\"", ")"])
        (endIdx ["import(", "\"a\"", ")"]) ["import(", "\"a\"", ")"])) =
      beginIdx ["import(", "\"a\"", ")"] := by
  refine ⟨by decide, ?_⟩
  exact (bounds_invariant ["import(", "\"a\"", ")"] (by decide)).2.2.1

/-- C3 counterexample: on a file whose block holds only a blank line, the
first run reports `done` and writes a file with an empty block, but the
second run reports `no includes found` and writes nothing, so the second
run does not write the same line sequence the first run wrote. -/
theorem idempotence_counterexample :
    formatFile ["import(", " ", ")"] = ("done", some ["import(", ")"]) ∧
    formatFile ["import(", ")"] = ("no includes found", none) := by
  constructor
  · simp +decide [formatFile, beginIdx, endIdx, deleteEmptyLines, sortIncludes,
      writeWithoutDeletedLines, writeLines, sepAfter, List.findIdx?,
      g_deleted_line]
  · rfl

/-- C3 (amended): whenever a run reports `done`, the rewritten file still
has a nonempty block, and no two distinct non-blank lines of that block are
equivalent under the comparator (`cmp` false both ways), a second run on the
written lines reports `done` and writes exactly the same line sequence;
when the rewritten block is empty the second run reports `no includes
found` and writes nothing. The tie-freedom hypothesis is needed because
`std::sort` fixes no order among equivalent lines, and the proof uses only
the sort's contract. -/
theorem formatFile_idempotent (lines out : List String)
    (h : formatFile lines = ("done", some out))
    (hne : beginIdx out < endIdx out)
    (hties : ∀ a ∈ (out.drop (beginIdx out)).take (endIdx out - beginIdx out),
      ∀ b ∈ (out.drop (beginIdx out)).take (endIdx out - beginIdx out),
      a ≠ "" → b ≠ "" → cmp a b = false → cmp b a = false → a = b) :
    formatFile out = ("done", some out) := by
  obtain ⟨noOp, op, mid, post, M, survivors, hdec, hb, he, hno, hop, hmid, hpost,
    hM, hsurv, hsplit, hsurvpair, hsurvprop, hrw, hbout, heout⟩ :=
    done_structure lines out h
  have hopdel : op ≠ g_deleted_line := by
    intro hcon
    rw [hcon, isOpenLine_del] at hop
    exact absurd hop (by simp)
  have hout_ne : out ≠ [] := by
    rw [hrw]
    intro hc
    have hlc := congrArg List.length hc
    simp at hlc
  obtain ⟨b2, hb2⟩ : ∃ b2, b2 = beginIdx out := ⟨_, rfl⟩
  obtain ⟨e2, he2⟩ : ∃ e2, e2 = endIdx out := ⟨_, rfl⟩
  have hb2' : b2 = (noOp.filter keepLine).length + 1 := by omega
  have he2' : e2 = (noOp.filter keepLine).length + 1 +
      (intersperseSeps survivors).length := by omega
  have hbe2 : ¬ (endIdx out ≤ beginIdx out) := by omega
  -- slices of the output list
  have hlen2 : (noOp.filter keepLine ++ [op]).length = b2 := by
    simp [hb2']
  have houtshape : out = (noOp.filter keepLine ++ [op]) ++
      (intersperseSeps survivors ++ post.filter keepLine) := hrw
  have houttake : out.take b2 = noOp.filter keepLine ++ [op] := by
    rw [houtshape]
    exact List.take_left' hlen2
  have houtdrop : out.drop b2 =
      intersperseSeps survivors ++ post.filter keepLine := by
    rw [houtshape]
    exact List.drop_left' hlen2
  have hmid2take : (intersperseSeps survivors ++ post.filter keepLine).take
      (e2 - b2) = intersperseSeps survivors :=
    List.take_left' (by omega)
  have houtdrope : out.drop e2 = post.filter keepLine := by
    rw [houtshape]
    rw [show (noOp.filter keepLine ++ [op]) ++
        (intersperseSeps survivors ++ post.filter keepLine) =
        ((noOp.filter keepLine ++ [op]) ++ intersperseSeps survivors) ++
          post.filter keepLine from by simp]
    refine List.drop_left' ?_
    simp only [List.length_append, List.length_cons, List.length_nil]
    omega
  -- the normalized second-run list
  have hdel2 : deleteEmptyLines b2 e2 out =
      (noOp.filter keepLine ++ [op]) ++
        (((intersperseSeps survivors).map
            (fun s => if isBlankLine s then g_deleted_line else s)) ++
          post.filter keepLine) := by
    rw [deleteEmptyLines, houttake, houtdrop, hmid2take, houtdrope]
    simp
  set L2 := (intersperseSeps survivors).map
    (fun s => if isBlankLine s then g_deleted_line else s) with hL2
  have hL2len : L2.length = (intersperseSeps survivors).length := by
    rw [hL2, List.length_map]
  have hL2filter : L2.filter keepLine = survivors := by
    rw [hL2]
    exact intersperseSeps_map_filter survivors
      (fun x hx => ⟨(hsurvprop x hx).1, (hsurvprop x hx).2.1⟩)
  have hslice : (out.drop (beginIdx out)).take (endIdx out - beginIdx out) =
      intersperseSeps survivors := by
    rw [← hb2, ← he2, houtdrop, hmid2take]
  have hantis : ∀ a ∈ survivors, ∀ b ∈ survivors,
      leFun a b = true → leFun b a = true → a = b := by
    intro a ha b hb hab hba
    have ha' : a ∈ intersperseSeps survivors := mem_intersperseSeps_of_mem ha
    have hb' : b ∈ intersperseSeps survivors := mem_intersperseSeps_of_mem hb
    have hane : a ≠ "" := by
      intro hc
      have hbl := (hsurvprop a ha).2.1
      rw [hc] at hbl
      exact absurd hbl (by decide)
    have hbne : b ≠ "" := by
      intro hc
      have hbl := (hsurvprop b hb).2.1
      rw [hc] at hbl
      exact absurd hbl (by decide)
    refine hties a ?_ b ?_ hane hbne ?_ ?_
    · rw [hslice]
      exact ha'
    · rw [hslice]
      exact hb'
    · simpa [leFun] using hba
    · simpa [leFun] using hab
  have hsortchar : L2.mergeSort leFun =
      survivors ++ List.replicate (L2.length - survivors.length) g_deleted_line :=
    contract_sort_split L2 survivors hL2filter hsurvpair hantis
  -- the sorted second-run list
  have hdropev3 : List.drop e2 ((noOp.filter keepLine ++ [op]) ++
      (L2 ++ post.filter keepLine)) = post.filter keepLine := by
    rw [show (noOp.filter keepLine ++ [op]) ++ (L2 ++ post.filter keepLine) =
        ((noOp.filter keepLine ++ [op]) ++ L2) ++ post.filter keepLine
      from by simp]
    refine List.drop_left' ?_
    simp only [List.length_append, List.length_cons, List.length_nil, hL2len]
    omega
  have hsort2 : sortIncludes b2 e2 (deleteEmptyLines b2 e2 out) =
      (noOp.filter keepLine ++ [op]) ++
        ((survivors ++
            List.replicate (L2.length - survivors.length) g_deleted_line) ++
          post.filter keepLine) := by
    rw [sortIncludes, hdel2]
    rw [List.take_left' hlen2, List.drop_left' hlen2,
      List.take_left' (by rw [hL2len]; omega), hdropev3, hsortchar]
    simp [List.append_assoc]
  -- locating the block of the sorted second-run list
  have hnoF : ∀ x ∈ noOp.filter keepLine, isOpenLine x = false :=
    fun x hx => hno x (List.mem_of_mem_filter hx)
  have hmid2close : ∀ x ∈ survivors ++
      List.replicate (L2.length - survivors.length) g_deleted_line,
      isCloseLine x = false := by
    intro x hx
    rcases List.mem_append.mp hx with hxs | hxd
    · exact (hsurvprop x hxs).2.2.1
    · rw [List.eq_of_mem_replicate hxd]
      exact isCloseLine_del
  have hpostf : post.filter keepLine = [] ∨
      ∃ cl post', post.filter keepLine = cl :: post' ∧ isCloseLine cl = true := by
    rcases hpost with rfl | ⟨cl, post', rfl, hcl⟩
    · exact Or.inl rfl
    · right
      have hcldel : cl ≠ g_deleted_line := by
        intro hcon
        rw [hcon, isCloseLine_del] at hcl
        exact absurd hcl (by simp)
      refine ⟨cl, post'.filter keepLine, ?_, hcl⟩
      rw [List.filter_cons]
      simp [keepLine, hcldel]
  have hloc3 : beginIdx ((noOp.filter keepLine ++ [op]) ++
        ((survivors ++
            List.replicate (L2.length - survivors.length) g_deleted_line) ++
          post.filter keepLine)) = (noOp.filter keepLine).length + 1 ∧
      endIdx ((noOp.filter keepLine ++ [op]) ++
        ((survivors ++
            List.replicate (L2.length - survivors.length) g_deleted_line) ++
          post.filter keepLine)) = (noOp.filter keepLine).length + 1 +
        (survivors ++
          List.replicate (L2.length - survivors.length) g_deleted_line).length := by
    rw [show (noOp.filter keepLine ++ [op]) ++
        ((survivors ++
            List.replicate (L2.length - survivors.length) g_deleted_line) ++
          post.filter keepLine) =
        noOp.filter keepLine ++ op ::
          ((survivors ++
              List.replicate (L2.length - survivors.length) g_deleted_line) ++
            post.filter keepLine) from by simp]
    rcases hpostf with hp0 | ⟨cl, post', hpeq, hcl⟩
    · rw [hp0]
      exact locate_shape hnoF hop hmid2close (Or.inl rfl)
    · rw [hpeq]
      exact locate_shape hnoF hop hmid2close (Or.inr ⟨cl, post', rfl, hcl⟩)
  -- filtering the outside regions again changes nothing
  have hnoFid : (noOp.filter keepLine).filter keepLine = noOp.filter keepLine :=
    List.filter_eq_self.mpr (fun a ha => (List.mem_filter.mp ha).2)
  have hpostFid : (post.filter keepLine).filter keepLine = post.filter keepLine :=
    List.filter_eq_self.mpr (fun a ha => (List.mem_filter.mp ha).2)
  -- rendering the second run
  have hrender2 : writeWithoutDeletedLines
      (sortIncludes b2 e2 (deleteEmptyLines b2 e2 out)) = out := by
    rw [hsort2, writeWithoutDeletedLines, hloc3.1, hloc3.2]
    rw [writeLines_full ((noOp.filter keepLine).length + 1)
      ((noOp.filter keepLine).length + 1 +
        (survivors ++
          List.replicate (L2.length - survivors.length) g_deleted_line).length)
      (noOp.filter keepLine ++ [op])
      (survivors ++ List.replicate (L2.length - survivors.length) g_deleted_line)
      (post.filter keepLine) (by simp) rfl]
    rw [List.filter_append, hnoFid, hpostFid]
    rw [show (([op] : List String).filter keepLine) = [op] from by
      rw [List.filter_cons]
      simp [keepLine, hopdel]]
    rw [blockRender_split survivors (fun x hx => (hsurvprop x hx).1) _]
    exact hrw.symm
  rw [formatFile, if_neg hout_ne]
  simp only [← hb2, ← he2, if_neg (by omega : ¬ e2 ≤ b2)]
  rw [hrender2]

theorem formatFile_idempotent_witness :
    formatFile ["import(", "\"b\"", ")"] = ("done", some ["import(", "\"b\"", ")"]) ∧
    beginIdx ["import(", "\"b\"", ")"] < endIdx ["import(", "\"b\"", ")"] := by
  have hff : formatFile ["import(", "\"b\"", ")"] =
      ("done", some ["import(", "\"b\"", ")"]) := by
    simp +decide [formatFile, beginIdx, endIdx, deleteEmptyLines, sortIncludes,
      writeWithoutDeletedLines, writeLines, sepAfter, List.findIdx?]
  have hsl : ((["import(", "\"b\"", ")"] : List String).drop
      (beginIdx ["import(", "\"b\"", ")"])).take
      (endIdx ["import(", "\"b\"", ")"] - beginIdx ["import(", "\"b\"", ")"]) =
      ["\"b\""] := by decide
  refine ⟨formatFile_idempotent ["import(", "\"b\"", ")"] ["import(", "\"b\"", ")"]
    hff (by decide) ?_, by decide⟩
  intro a ha b hb hane hbne h1 h2
  rw [hsl] at ha hb
  simp at ha hb
  rw [ha, hb]

end OrderIncludes
